import Mathlib

/-!
Verification of the resume-classification pipeline of the
JOB-ROLE-PREDICTION repository (`API.py` and `app.py`).

The heart of the repository is the text normalizer `clean_resume`, the
category table `category_mapping` / `CATEGORY_MAPPING`, and the
orchestration that feeds the normalized text through the externally
loaded vectorizer (`tfidfd.transform`) and classifier (`clf.predict`).

Python strings are modelled as `List Char` (Unicode scalar values, the
same data model CPython uses).  Each `re.sub` call of the source is
modelled by a structurally recursive scanner over the character list
that performs the same leftmost, non-overlapping replacement the
`re` module performs for that concrete pattern.  The external model
artifacts are abstracted as a pair of opaque functions (`Artifacts`),
exactly the interface the source uses.
-/

/-- The set of characters matched by Python's `\s` (and stripped by
`str.strip()`) for `str` patterns: ASCII whitespace controls, the
C1 control quartet 0x1c-0x1f, and the Unicode space characters,
mirroring CPython's `Py_UNICODE_ISSPACE`. -/
def pythonIsSpace (c : Char) : Bool :=
  let n := c.toNat
  n == 9 || n == 10 || n == 11 || n == 12 || n == 13 ||
  decide (28 ≤ n ∧ n ≤ 31) || n == 32 || n == 133 || n == 160 ||
  n == 5760 || decide (8192 ≤ n ∧ n ≤ 8202) ||
  n == 8232 || n == 8233 || n == 8239 || n == 8287 || n == 12288

/-- The fixed punctuation class of the fifth `re.sub`:
`!"#$%&'()*+,-./:;<=>?@[\]^_` backtick `{|}~`, i.e. the ASCII
code ranges 33-47, 58-64, 91-96 and 123-126. -/
def isPunct (c : Char) : Bool :=
  let n := c.toNat
  decide (33 ≤ n ∧ n ≤ 47) || decide (58 ≤ n ∧ n ≤ 64) ||
  decide (91 ≤ n ∧ n ≤ 96) || decide (123 ≤ n ∧ n ≤ 126)

/-- Character map of `re.sub('[%s]' % re.escape(punct), ' ', _)`. -/
def punctToSpace (c : Char) : Char := if isPunct c then ' ' else c

/-- Character map of `re.sub(r'[^\x00-\x7f]', ' ', _)`. -/
def nonAsciiToSpace (c : Char) : Char := if 128 ≤ c.toNat then ' ' else c

/-- Window predicate of the `http\S+\s*` pattern: the list begins with
`http` followed by a non-whitespace character. -/
def startsHttpMatch : List Char → Bool
  | a :: b :: c :: d :: e :: _ =>
      a == 'h' && b == 't' && c == 't' && d == 'p' && !pythonIsSpace e
  | _ => false

/-- Scanner state for `re.sub('http\S+\s*', ' ', _)`: `norm` scans for a
match; `skip4`..`skip1` consume the four remaining characters of a
detected `http` + first-`\S` window; `word` consumes the rest of the
`\S+` run; `trail` consumes the `\s*` run. -/
inductive HSt : Type
  | norm : HSt
  | skip4 : HSt
  | skip3 : HSt
  | skip2 : HSt
  | skip1 : HSt
  | word : HSt
  | trail : HSt
deriving DecidableEq

/-- One-pass scanner realizing `re.sub('http\S+\s*', ' ', _)`:
each leftmost occurrence of `http` followed by at least one
non-whitespace character and then any run of whitespace is replaced
by a single space. -/
def subHttpAux : HSt → List Char → List Char
  | _, [] => []
  | HSt.skip4, _ :: cs => subHttpAux HSt.skip3 cs
  | HSt.skip3, _ :: cs => subHttpAux HSt.skip2 cs
  | HSt.skip2, _ :: cs => subHttpAux HSt.skip1 cs
  | HSt.skip1, _ :: cs => subHttpAux HSt.word cs
  | HSt.word, c :: cs =>
      if pythonIsSpace c then subHttpAux HSt.trail cs else subHttpAux HSt.word cs
  | HSt.norm, c :: cs =>
      if startsHttpMatch (c :: cs) then ' ' :: subHttpAux HSt.skip4 cs
      else c :: subHttpAux HSt.norm cs
  | HSt.trail, c :: cs =>
      if pythonIsSpace c then subHttpAux HSt.trail cs
      else if startsHttpMatch (c :: cs) then ' ' :: subHttpAux HSt.skip4 cs
      else c :: subHttpAux HSt.norm cs

/-- `re.sub('http\S+\s*', ' ', l)`. -/
def pySubHttp (l : List Char) : List Char := subHttpAux HSt.norm l

/-- `re.sub('RT|cc', ' ', l)`: every leftmost, non-overlapping literal
occurrence of `RT` or `cc` becomes one space. -/
def pySubRTcc : List Char → List Char
  | [] => []
  | [c] => [c]
  | c1 :: c2 :: cs =>
    if (c1 = 'R' ∧ c2 = 'T') ∨ (c1 = 'c' ∧ c2 = 'c') then ' ' :: pySubRTcc cs
    else c1 :: pySubRTcc (c2 :: cs)

/-- Does the list begin with a non-whitespace character?  (`\S` lookahead
used by the hashtag and mention patterns.) -/
def headNonSpace : List Char → Bool
  | [] => false
  | c :: _ => !pythonIsSpace c

/-- One-pass scanner realizing `re.sub(tag ++ '\S+', repl, _)` for a
single-character `tag` (`#` or `@`): the Boolean state records whether
the scanner is inside the `\S+` run of a match being consumed. -/
def subTagAux (tag : Char) (repl : List Char) : Bool → List Char → List Char
  | true, [] => []
  | true, c :: cs =>
      if pythonIsSpace c then c :: subTagAux tag repl false cs
      else subTagAux tag repl true cs
  | false, [] => []
  | false, c :: cs =>
      if c = tag ∧ headNonSpace cs then repl ++ subTagAux tag repl true cs
      else c :: subTagAux tag repl false cs

/-- `re.sub('#\S+', '', l)`. -/
def pySubHash (l : List Char) : List Char := subTagAux '#' [] false l

/-- `re.sub('@\S+', '  ', l)`. -/
def pySubAt (l : List Char) : List Char := subTagAux '@' [' ', ' '] false l

/-- One-pass scanner realizing `re.sub('\s+', ' ', _)`: the Boolean state
records whether the scanner is inside a whitespace run that has already
emitted its single replacement space. -/
def collapseAux : Bool → List Char → List Char
  | _, [] => []
  | true, c :: cs =>
      if pythonIsSpace c then collapseAux true cs
      else c :: collapseAux false cs
  | false, c :: cs =>
      if pythonIsSpace c then ' ' :: collapseAux true cs
      else c :: collapseAux false cs

/-- `re.sub('\s+', ' ', l)`. -/
def collapseSpaces (l : List Char) : List Char := collapseAux false l

/-- Remove trailing whitespace (the right half of `str.strip()`). -/
def rdropSpace : List Char → List Char
  | [] => []
  | c :: cs =>
    match rdropSpace cs with
    | [] => if pythonIsSpace c then [] else [c]
    | d :: r => c :: d :: r

/-- Python `str.strip()`: drop leading and trailing whitespace. -/
def pyStrip (l : List Char) : List Char :=
  rdropSpace (l.dropWhile pythonIsSpace)

/-- The seven `re.sub` stages shared verbatim by `clean_resume` in
`API.py` and `app.py`, in source order. -/
def cleanList (l : List Char) : List Char :=
  collapseSpaces
    ((pySubAt (pySubHash (pySubRTcc (pySubHttp l)))).map punctToSpace
      |>.map nonAsciiToSpace)

/-- `clean_resume` of `API.py`: the seven substitutions, with no final
`strip()`. -/
def clean_resume_api (resume_text : String) : String :=
  String.mk (cleanList resume_text.data)

/-- `clean_resume` of `app.py`: the same seven substitutions followed by
`clean_text.strip()`. -/
def clean_resume_app (resume_text : String) : String :=
  String.mk (pyStrip (cleanList resume_text.data))

/-- `category_mapping.get(prediction_id, "Unknown")` of `API.py`, equal to
`CATEGORY_MAPPING.get(prediction_id, "Unknown")` of `app.py`; keys in the
insertion order of the source dictionaries. -/
def category_mapping (prediction_id : Int) : String :=
  if prediction_id = 15 then "Java Developer"
  else if prediction_id = 23 then "Testing"
  else if prediction_id = 8 then "DevOps Engineer"
  else if prediction_id = 20 then "SDE"
  else if prediction_id = 24 then "Web Designing"
  else if prediction_id = 12 then "HR"
  else if prediction_id = 13 then "Hadoop"
  else if prediction_id = 3 then "Blockchain"
  else if prediction_id = 10 then "ETL Developer"
  else if prediction_id = 18 then "Operations Manager"
  else if prediction_id = 6 then "Data Science"
  else if prediction_id = 22 then "Sales"
  else if prediction_id = 16 then "Mechanical Engineer"
  else if prediction_id = 1 then "Arts"
  else if prediction_id = 7 then "Database"
  else if prediction_id = 11 then "Electrical Engineering"
  else if prediction_id = 14 then "Health and fitness"
  else if prediction_id = 19 then "PMO"
  else if prediction_id = 4 then "Business Analyst"
  else if prediction_id = 9 then "DotNet Developer"
  else if prediction_id = 2 then "Automation Testing"
  else if prediction_id = 17 then "Network Security Engineer"
  else if prediction_id = 21 then "SAP Developer"
  else if prediction_id = 5 then "Civil Engineer"
  else if prediction_id = 0 then "Advocate"
  else "Unknown"

/-- The externally loaded model artifacts, abstracted to exactly the
interface the source calls: `tfidfd.transform` on a batch of documents
and `clf.predict` returning a list of integer labels. -/
structure Artifacts (α : Type) : Type where
  transform : List String → α
  predict : α → List Int

/-- `getCategories` of `API.py`: clean, vectorize the one-document batch,
predict, take element `[0]` of the prediction (`none` models the
`IndexError` were the prediction batch empty), and resolve the label. -/
def getCategories {α : Type} (a : Artifacts α) (resume_text : String) :
    Option String :=
  let cleaned_resume := clean_resume_api resume_text
  let input_features := a.transform [cleaned_resume]
  match a.predict input_features with
  | [] => none
  | prediction_id :: _ => some (category_mapping prediction_id)

/-- Lines 183-186 of `app.py`: the classification segment of the upload
handler (clean, transform, predict `[0]`, resolve). -/
def app_pipeline {α : Type} (a : Artifacts α) (resume_text : String) :
    Option String :=
  match a.predict (a.transform [clean_resume_app resume_text]) with
  | [] => none
  | prediction_id :: _ => some (category_mapping prediction_id)

/-- Outcome of the `app.py` upload handler: either the early
`st.error`-and-`return` path for raw text that strips to empty, or a
predicted category name. -/
inductive AppOutcome : Type
  | emptyError : AppOutcome
  | ok : String → AppOutcome
deriving DecidableEq, Repr

/-- Lines 179-186 of `app.py`: `if not resume_text.strip(): error; return`
followed by the classification segment. -/
def app_handle {α : Type} (a : Artifacts α) (resume_text : String) :
    Option AppOutcome :=
  if String.mk (pyStrip resume_text.data) = "" then some AppOutcome.emptyError
  else (app_pipeline a resume_text).map AppOutcome.ok

/-- A mocked artifact pair whose classifier returns label 15 for every
feature vector. -/
def mock15 : Artifacts (List String) :=
  { transform := id, predict := fun _ => [15] }

/-- A mocked artifact pair whose classifier returns label 0 for every
feature vector. -/
def mock0 : Artifacts (List String) :=
  { transform := id, predict := fun _ => [0] }

/-- Generic scanner: does some suffix of the list satisfy the window
predicate `starts`? -/
def scanHas (starts : List Char → Bool) : List Char → Bool
  | [] => false
  | c :: cs => starts (c :: cs) || scanHas starts cs

/-- Window predicate of the `RT|cc` pattern. -/
def startsRTcc : List Char → Bool
  | a :: b :: _ => (a == 'R' && b == 'T') || (a == 'c' && b == 'c')
  | _ => false

/-- Window predicate for two adjacent whitespace characters. -/
def startsWsPair : List Char → Bool
  | a :: b :: _ => pythonIsSpace a && pythonIsSpace b
  | _ => false

/-- A string neither begins nor ends with whitespace. -/
def isStripped (s : String) : Bool :=
  (match s.data.head? with
   | some c => !pythonIsSpace c
   | none => true) &&
  (match s.data.getLast? with
   | some c => !pythonIsSpace c
   | none => true)


/-- Claim C2: for every label in {0,...,24} the category table resolves to
the fixed name of the 25-entry table, and every label outside {0,...,24}
resolves to the literal string "Unknown" rather than failing. -/
theorem claim_C2_category_table :
    (∀ L : Int, (L < 0 ∨ 24 < L) → category_mapping L = "Unknown") ∧
    category_mapping 0 = "Advocate" ∧ category_mapping 1 = "Arts" ∧
    category_mapping 2 = "Automation Testing" ∧ category_mapping 3 = "Blockchain" ∧
    category_mapping 4 = "Business Analyst" ∧ category_mapping 5 = "Civil Engineer" ∧
    category_mapping 6 = "Data Science" ∧ category_mapping 7 = "Database" ∧
    category_mapping 8 = "DevOps Engineer" ∧ category_mapping 9 = "DotNet Developer" ∧
    category_mapping 10 = "ETL Developer" ∧ category_mapping 11 = "Electrical Engineering" ∧
    category_mapping 12 = "HR" ∧ category_mapping 13 = "Hadoop" ∧
    category_mapping 14 = "Health and fitness" ∧ category_mapping 15 = "Java Developer" ∧
    category_mapping 16 = "Mechanical Engineer" ∧
    category_mapping 17 = "Network Security Engineer" ∧
    category_mapping 18 = "Operations Manager" ∧ category_mapping 19 = "PMO" ∧
    category_mapping 20 = "SDE" ∧ category_mapping 21 = "SAP Developer" ∧
    category_mapping 22 = "Sales" ∧ category_mapping 23 = "Testing" ∧
    category_mapping 24 = "Web Designing" := by
  refine ⟨?_, rfl, rfl, rfl, rfl, rfl, rfl, rfl, rfl, rfl, rfl, rfl, rfl, rfl,
    rfl, rfl, rfl, rfl, rfl, rfl, rfl, rfl, rfl, rfl, rfl, rfl⟩
  intro L h
  unfold category_mapping
  repeat rw [if_neg]
  all_goals omega

/-- Witness for claim C2 at the concrete out-of-range label 25. -/
theorem claim_C2_category_table_witness : category_mapping 25 = "Unknown" :=
  claim_C2_category_table.1 25 (Or.inr (by decide))

/-- Claim C9: the second substitution replaces the two-character substrings
`RT` and `cc` wherever they occur, also inside longer words: `"success"`
normalizes to `"su ess"` in both files. -/
theorem claim_C9_inner_cc_replaced :
    clean_resume_api "success" = "su ess" ∧
    clean_resume_app "success" = "su ess" := ⟨rfl, rfl⟩

/-- Counterexample to claim C4 as stated: `clean_resume` of `API.py` does
not return exactly "Visit now" on the fixture input (it keeps a trailing
space because `API.py` never calls `strip()`). -/
theorem claim_C4_counterexample :
    clean_resume_api "Visit http://example.com now! #hiring @someone" ≠
      "Visit now" := by decide

/-- Claim C4 (amended): on the fixture input, `app.py`'s normalizer returns
exactly "Visit now", while `API.py`'s returns "Visit now " with one
trailing space. -/
theorem claim_C4_fixture :
    clean_resume_app "Visit http://example.com now! #hiring @someone" =
      "Visit now" ∧
    clean_resume_api "Visit http://example.com now! #hiring @someone" =
      "Visit now " := ⟨rfl, rfl⟩

/-- Claim C1 evaluated at the failing inputs: `getCategories` of `API.py`
performs no emptiness check at all, so on the raw input `""` (whose
normalized form is `""`) the vectorizer is invoked on the empty document
and a category is returned; `app.py` checks only the raw text, so `"!!!"`
(raw strip non-empty, normalized form empty) also reaches the vectorizer
as an empty document.  No `EmptyInputError` exists anywhere in the code. -/
theorem claim_C1_no_empty_guard :
    clean_resume_api "" = "" ∧
    getCategories mock15 "" = some "Java Developer" ∧
    clean_resume_app "!!!" = "" ∧
    app_handle mock15 "!!!" = some (AppOutcome.ok "Java Developer") := by
  refine ⟨rfl, rfl, rfl, ?_⟩
  decide

/-- Claim C7: with a loaded classifier whose `predict` returns label 15 on
every feature vector, both classification pipelines (`getCategories` of
`API.py` and lines 183-186 of `app.py`) return "Java Developer" on every
non-empty input text. -/
theorem claim_C7_constant_classifier :
    ∀ (α : Type) (a : Artifacts α),
      (∀ v, a.predict v = [15]) →
      ∀ text : String, text ≠ "" →
        getCategories a text = some "Java Developer" ∧
        app_pipeline a text = some "Java Developer" := by
  intro α a hp text _
  refine ⟨?_, ?_⟩ <;> simp [getCategories, app_pipeline, hp, category_mapping]

/-- Witness for claim C7 at the mocked artifacts and the input "x". -/
theorem claim_C7_constant_classifier_witness :
    getCategories mock15 "x" = some "Java Developer" ∧
    app_pipeline mock15 "x" = some "Java Developer" :=
  claim_C7_constant_classifier (List String) mock15 (fun _ => rfl) "x"
    (by decide)

/-- Claim C8: the predicted category of `getCategories` depends on the raw
text only through its normalized form: equal normalizations yield equal
results for any fixed artifacts. -/
theorem claim_C8_factors_through_normalizer :
    ∀ (α : Type) (a : Artifacts α) (x y : String),
      clean_resume_api x = clean_resume_api y →
      getCategories a x = getCategories a y := by
  intro α a x y h
  simp only [getCategories, h]

/-- Witness for claim C8: "a!" and "a?" normalize identically, hence
classify identically. -/
theorem claim_C8_factors_through_normalizer_witness :
    getCategories mock0 "a!" = getCategories mock0 "a?" :=
  claim_C8_factors_through_normalizer (List String) mock0 "a!" "a?" (by decide)

/-- Every character emitted by the URL scanner is a replacement space or a
character of the input. -/
theorem mem_of_subHttpAux : ∀ (st : HSt) (l : List Char) (c : Char),
    c ∈ subHttpAux st l → c = ' ' ∨ c ∈ l := by
  intro st l
  induction st, l using subHttpAux.induct with
  | case1 st => simp [subHttpAux]
  | case2 c0 cs ih =>
    intro c hc
    rw [subHttpAux] at hc
    exact (ih c hc).imp id (List.mem_cons_of_mem _)
  | case3 c0 cs ih =>
    intro c hc
    rw [subHttpAux] at hc
    exact (ih c hc).imp id (List.mem_cons_of_mem _)
  | case4 c0 cs ih =>
    intro c hc
    rw [subHttpAux] at hc
    exact (ih c hc).imp id (List.mem_cons_of_mem _)
  | case5 c0 cs ih =>
    intro c hc
    rw [subHttpAux] at hc
    exact (ih c hc).imp id (List.mem_cons_of_mem _)
  | case6 c0 cs h ih =>
    intro c hc
    rw [subHttpAux, if_pos h] at hc
    exact (ih c hc).imp id (List.mem_cons_of_mem _)
  | case7 c0 cs h ih =>
    intro c hc
    rw [subHttpAux, if_neg h] at hc
    exact (ih c hc).imp id (List.mem_cons_of_mem _)
  | case8 c0 cs h ih =>
    intro c hc
    rw [subHttpAux, if_pos h] at hc
    rcases List.mem_cons.mp hc with h1 | h1
    · exact Or.inl h1
    · exact (ih c h1).imp id (List.mem_cons_of_mem _)
  | case9 c0 cs h ih =>
    intro c hc
    rw [subHttpAux, if_neg h] at hc
    rcases List.mem_cons.mp hc with h1 | h1
    · exact Or.inr (h1 ▸ List.mem_cons_self _ _)
    · exact (ih c h1).imp id (List.mem_cons_of_mem _)
  | case10 c0 cs h ih =>
    intro c hc
    rw [subHttpAux, if_pos h] at hc
    exact (ih c hc).imp id (List.mem_cons_of_mem _)
  | case11 c0 cs h h2 ih =>
    intro c hc
    rw [subHttpAux, if_neg h, if_pos h2] at hc
    rcases List.mem_cons.mp hc with h1 | h1
    · exact Or.inl h1
    · exact (ih c h1).imp id (List.mem_cons_of_mem _)
  | case12 c0 cs h h2 ih =>
    intro c hc
    rw [subHttpAux, if_neg h, if_neg h2] at hc
    rcases List.mem_cons.mp hc with h1 | h1
    · exact Or.inr (h1 ▸ List.mem_cons_self _ _)
    · exact (ih c h1).imp id (List.mem_cons_of_mem _)

/-- Every character emitted by the `RT|cc` scanner is a replacement space
or a character of the input. -/
theorem mem_of_pySubRTcc : ∀ (l : List Char) (c : Char),
    c ∈ pySubRTcc l → c = ' ' ∨ c ∈ l := by
  intro l
  induction l using pySubRTcc.induct with
  | case1 => simp [pySubRTcc]
  | case2 c0 =>
    intro c hc
    rw [pySubRTcc] at hc
    exact Or.inr hc
  | case3 c1 c2 cs h ih =>
    intro c hc
    rw [pySubRTcc, if_pos h] at hc
    rcases List.mem_cons.mp hc with h1 | h1
    · exact Or.inl h1
    · exact (ih c h1).imp id
        (fun hm => List.mem_cons_of_mem _ (List.mem_cons_of_mem _ hm))
  | case4 c1 c2 cs h ih =>
    intro c hc
    rw [pySubRTcc, if_neg h] at hc
    rcases List.mem_cons.mp hc with h1 | h1
    · exact Or.inr (h1 ▸ List.mem_cons_self _ _)
    · exact (ih c h1).imp id (List.mem_cons_of_mem _)

/-- Every character emitted by the tag scanner with an all-space
replacement is a space or a character of the input. -/
theorem mem_of_subTagAux :
    ∀ (tag : Char) (repl : List Char), (∀ r ∈ repl, r = ' ') →
    ∀ (b : Bool) (l : List Char) (c : Char),
      c ∈ subTagAux tag repl b l → c = ' ' ∨ c ∈ l := by
  intro tag repl hrepl b l
  induction b, l using subTagAux.induct tag repl with
  | case1 => simp [subTagAux]
  | case2 c0 cs h ih =>
    intro c hc
    rw [subTagAux, if_pos h] at hc
    rcases List.mem_cons.mp hc with h1 | h1
    · exact Or.inr (h1 ▸ List.mem_cons_self _ _)
    · exact (ih c h1).imp id (List.mem_cons_of_mem _)
  | case3 c0 cs h ih =>
    intro c hc
    rw [subTagAux, if_neg h] at hc
    exact (ih c hc).imp id (List.mem_cons_of_mem _)
  | case4 => simp [subTagAux]
  | case5 c0 cs h ih =>
    intro c hc
    rw [subTagAux, if_pos h] at hc
    rcases List.mem_append.mp hc with h1 | h1
    · exact Or.inl (hrepl c h1)
    · exact (ih c h1).imp id (List.mem_cons_of_mem _)
  | case6 c0 cs h ih =>
    intro c hc
    rw [subTagAux, if_neg h] at hc
    rcases List.mem_cons.mp hc with h1 | h1
    · exact Or.inr (h1 ▸ List.mem_cons_self _ _)
    · exact (ih c h1).imp id (List.mem_cons_of_mem _)

/-- Every character emitted by the whitespace collapser is a space or a
character of the input. -/
theorem mem_of_collapseAux : ∀ (b : Bool) (l : List Char) (c : Char),
    c ∈ collapseAux b l → c = ' ' ∨ c ∈ l := by
  intro b l
  induction b, l using collapseAux.induct with
  | case1 => simp [collapseAux]
  | case2 c0 cs h ih =>
    intro c hc
    rw [collapseAux, if_pos h] at hc
    exact (ih c hc).imp id (List.mem_cons_of_mem _)
  | case3 c0 cs h ih =>
    intro c hc
    rw [collapseAux, if_neg h] at hc
    rcases List.mem_cons.mp hc with h1 | h1
    · exact Or.inr (h1 ▸ List.mem_cons_self _ _)
    · exact (ih c h1).imp id (List.mem_cons_of_mem _)
  | case4 c0 cs h ih =>
    intro c hc
    rw [collapseAux, if_pos h] at hc
    rcases List.mem_cons.mp hc with h1 | h1
    · exact Or.inl h1
    · exact (ih c h1).imp id (List.mem_cons_of_mem _)
  | case5 c0 cs h ih =>
    intro c hc
    rw [collapseAux, if_neg h] at hc
    rcases List.mem_cons.mp hc with h1 | h1
    · exact Or.inr (h1 ▸ List.mem_cons_self _ _)
    · exact (ih c h1).imp id (List.mem_cons_of_mem _)

/-- The character maps of stages five and six change a character only
into a space. -/
theorem spacey_punctToSpace : ∀ x, punctToSpace x = x ∨ punctToSpace x = ' ' := by
  intro x
  unfold punctToSpace
  split_ifs <;> simp

/-- The non-ASCII map changes a character only into a space. -/
theorem spacey_nonAsciiToSpace : ∀ x, nonAsciiToSpace x = x ∨ nonAsciiToSpace x = ' ' := by
  intro x
  unfold nonAsciiToSpace
  split_ifs <;> simp

/-- Membership through a map that only turns characters into spaces. -/
theorem mem_of_map_spacey (f : Char → Char) (hf : ∀ x, f x = x ∨ f x = ' ') :
    ∀ (l : List Char) (c : Char), c ∈ l.map f → c = ' ' ∨ c ∈ l := by
  intro l c hc
  rcases List.mem_map.mp hc with ⟨a, ha, rfl⟩
  rcases hf a with h | h
  · rw [h]
    exact Or.inr ha
  · rw [h]
    exact Or.inl rfl

/-- `rdropSpace` only removes characters. -/
theorem mem_of_rdropSpace : ∀ (l : List Char) (c : Char),
    c ∈ rdropSpace l → c ∈ l := by
  intro l
  induction l using rdropSpace.induct with
  | case1 => simp [rdropSpace]
  | case2 c0 cs hr h ih =>
    intro c hc
    rw [rdropSpace, hr, if_pos h] at hc
    simp at hc
  | case3 c0 cs hr h ih =>
    intro c hc
    rw [rdropSpace, hr, if_neg h] at hc
    rcases List.mem_singleton.mp hc with rfl
    exact List.mem_cons_self _ _
  | case4 c0 cs d r hr ih =>
    intro c hc
    rw [rdropSpace, hr] at hc
    rcases List.mem_cons.mp hc with h1 | h1
    · exact h1 ▸ List.mem_cons_self _ _
    · exact List.mem_cons_of_mem _ (ih c (hr ▸ h1))

/-- `str.strip()` only removes characters. -/
theorem mem_of_pyStrip : ∀ (l : List Char) (c : Char),
    c ∈ pyStrip l → c ∈ l := by
  intro l c hc
  exact List.IsSuffix.mem (mem_of_rdropSpace _ c hc) (List.dropWhile_suffix _)

/-- Every character of the normalized text is a space or a character of
the raw input. -/
theorem mem_of_cleanList : ∀ (l : List Char) (c : Char),
    c ∈ cleanList l → c = ' ' ∨ c ∈ l := by
  intro l c hc
  unfold cleanList collapseSpaces at hc
  rcases mem_of_collapseAux _ _ _ hc with h | h
  · exact Or.inl h
  rcases mem_of_map_spacey _ spacey_nonAsciiToSpace _ _ h with h | h
  · exact Or.inl h
  rcases mem_of_map_spacey _ spacey_punctToSpace _ _ h with h | h
  · exact Or.inl h
  rcases mem_of_subTagAux '@' [' ', ' '] (by simp) _ _ _ h with h | h
  · exact Or.inl h
  rcases mem_of_subTagAux '#' [] (by simp) _ _ _ h with h | h
  · exact Or.inl h
  rcases mem_of_pySubRTcc _ _ h with h | h
  · exact Or.inl h
  exact mem_of_subHttpAux _ _ _ h

/-- Claim C10: the normalizer never introduces characters other than
spaces: every character of `clean_resume(x)` (either variant) is a space
or occurs in `x`. -/
theorem claim_C10_no_new_characters :
    ∀ (x : String) (c : Char),
      (c ∈ (clean_resume_api x).data → c = ' ' ∨ c ∈ x.data) ∧
      (c ∈ (clean_resume_app x).data → c = ' ' ∨ c ∈ x.data) := by
  intro x c
  constructor
  · intro hc
    exact mem_of_cleanList _ _ hc
  · intro hc
    exact mem_of_cleanList _ _ (mem_of_pyStrip _ _ hc)

/-- Witness for claim C10 at the input "b" and its character 'b'. -/
theorem claim_C10_no_new_characters_witness :
    ('b' = ' ' ∨ 'b' ∈ "b".data) ∧ ('b' = ' ' ∨ 'b' ∈ "b".data) :=
  ⟨(claim_C10_no_new_characters "b" 'b').1 (by decide),
   (claim_C10_no_new_characters "b" 'b').2 (by decide)⟩

/-- After the punctuation map and the non-ASCII map every character is
non-punctuation 7-bit ASCII. -/
theorem charOK_of_mem_maps : ∀ (l : List Char) (c : Char),
    c ∈ (l.map punctToSpace).map nonAsciiToSpace →
    isPunct c = false ∧ c.toNat < 128 := by
  intro l c hc
  rcases List.mem_map.mp hc with ⟨b, hb, rfl⟩
  unfold nonAsciiToSpace
  split_ifs with h
  · exact ⟨by decide, by decide⟩
  · refine ⟨?_, by omega⟩
    rcases List.mem_map.mp hb with ⟨a, _, rfl⟩
    unfold punctToSpace
    split_ifs with h2
    · decide
    · simpa using h2

/-- Characters of the normalized text are never punctuation and always
7-bit ASCII (list form). -/
theorem charOK_of_mem_cleanList : ∀ (l : List Char) (c : Char),
    c ∈ cleanList l → isPunct c = false ∧ c.toNat < 128 := by
  intro l c hc
  unfold cleanList collapseSpaces at hc
  rcases mem_of_collapseAux _ _ _ hc with h | h
  · subst h
    exact ⟨by decide, by decide⟩
  · exact charOK_of_mem_maps _ _ h

/-- Claim C5: for every input, the normalized text contains no character
of the fixed punctuation set and no character with ordinal at or above
0x80, in both variants of `clean_resume`. -/
theorem claim_C5_ascii_no_punct :
    ∀ (x : String) (c : Char),
      (c ∈ (clean_resume_api x).data → isPunct c = false ∧ c.toNat < 128) ∧
      (c ∈ (clean_resume_app x).data → isPunct c = false ∧ c.toNat < 128) := by
  intro x c
  constructor
  · intro hc
    exact charOK_of_mem_cleanList _ _ hc
  · intro hc
    exact charOK_of_mem_cleanList _ _ (mem_of_pyStrip _ _ hc)

/-- Witness for claim C5 at the input "a" and its character 'a'. -/
theorem claim_C5_ascii_no_punct_witness :
    (isPunct 'a' = false ∧ 'a'.toNat < 128) ∧
    (isPunct 'a' = false ∧ 'a'.toNat < 128) :=
  ⟨(claim_C5_ascii_no_punct "a" 'a').1 (by decide),
   (claim_C5_ascii_no_punct "a" 'a').2 (by decide)⟩

/-- The head of a `collapseAux` run started in skipping state is never
whitespace. -/
theorem head_collapseAux_true : ∀ (l : List Char) (d : Char),
    (collapseAux true l).head? = some d → pythonIsSpace d = false := by
  intro l
  induction l with
  | nil => simp [collapseAux]
  | cons c cs ih =>
    intro d hd
    rw [collapseAux] at hd
    by_cases h : pythonIsSpace c
    · rw [if_pos h] at hd
      exact ih d hd
    · rw [if_neg h, List.head?_cons] at hd
      injection hd with h1
      subst h1
      simpa using h

/-- The whitespace collapser never emits two adjacent whitespace
characters. -/
theorem noWsPair_collapseAux : ∀ (b : Bool) (l : List Char),
    scanHas startsWsPair (collapseAux b l) = false := by
  intro b l
  induction b, l using collapseAux.induct with
  | case1 b => simp [collapseAux, scanHas]
  | case2 c cs h ih =>
    rw [collapseAux, if_pos h]
    exact ih
  | case3 c cs h ih =>
    rw [collapseAux, if_neg h, scanHas]
    rw [Bool.or_eq_false_iff]
    refine ⟨?_, ih⟩
    cases hout : collapseAux false cs with
    | nil => rfl
    | cons d r => simp [startsWsPair, h]
  | case4 c cs h ih =>
    rw [collapseAux, if_pos h, scanHas]
    rw [Bool.or_eq_false_iff]
    refine ⟨?_, ih⟩
    cases hout : collapseAux true cs with
    | nil => rfl
    | cons d r =>
      have hd := head_collapseAux_true cs d (by rw [hout]; rfl)
      simp [startsWsPair, hd]
  | case5 c cs h ih =>
    rw [collapseAux, if_neg h, scanHas]
    rw [Bool.or_eq_false_iff]
    refine ⟨?_, ih⟩
    cases hout : collapseAux false cs with
    | nil => rfl
    | cons d r => simp [startsWsPair, h]

/-- A window scan that fails on a list fails on its tail. -/
theorem scanHas_tail_false (s : List Char → Bool) (c : Char) (cs : List Char)
    (h : scanHas s (c :: cs) = false) : scanHas s cs = false := by
  rw [scanHas] at h
  exact (Bool.or_eq_false_iff.mp h).2

/-- A window scan that fails on a list fails on any `dropWhile` suffix. -/
theorem scanHas_dropWhile_false (s : List Char → Bool) (p : Char → Bool) :
    ∀ (l : List Char), scanHas s l = false →
      scanHas s (l.dropWhile p) = false := by
  intro l
  induction l with
  | nil => simp
  | cons c cs ih =>
    intro h
    rw [List.dropWhile_cons]
    split_ifs with hp
    · exact ih (scanHas_tail_false s c cs h)
    · exact h

/-- For a window predicate stable under extension on the right, a scan
that fails on `w ++ u` fails on the prefix `w`. -/
theorem scanHas_append_false (s : List Char → Bool)
    (hext : ∀ (w u : List Char), s w = true → s (w ++ u) = true) :
    ∀ (w u : List Char), scanHas s (w ++ u) = false → scanHas s w = false := by
  intro w
  induction w with
  | nil => intro u _; rfl
  | cons c w2 ih =>
    intro u h
    rw [List.cons_append, scanHas] at h
    rw [scanHas]
    rw [Bool.or_eq_false_iff] at h
    rw [Bool.or_eq_false_iff]
    refine ⟨?_, ih u h.2⟩
    by_cases hs : s (c :: w2) = true
    · have hx := hext (c :: w2) u hs
      rw [List.cons_append] at hx
      rw [hx] at h
      exact absurd h.1 (by simp)
    · simpa using hs

/-- The two-whitespace window is stable under extension on the right. -/
theorem startsWsPair_ext : ∀ (w u : List Char),
    startsWsPair w = true → startsWsPair (w ++ u) = true := by
  intro w u h
  rcases w with _ | ⟨a, _ | ⟨b, r⟩⟩
  · simp [startsWsPair] at h
  · simp [startsWsPair] at h
  · simpa [startsWsPair] using h

/-- `rdropSpace` returns a prefix of its input. -/
theorem rdropSpace_append : ∀ (l : List Char), ∃ u, l = rdropSpace l ++ u := by
  intro l
  induction l using rdropSpace.induct with
  | case1 => exact ⟨[], rfl⟩
  | case2 c cs hr h ih =>
    have hx : rdropSpace (c :: cs) = [] := by
      rw [rdropSpace, hr, if_pos h]
    rw [hx]
    exact ⟨c :: cs, rfl⟩
  | case3 c cs hr h ih =>
    have hx : rdropSpace (c :: cs) = [c] := by
      rw [rdropSpace, hr, if_neg h]
    rw [hx]
    exact ⟨cs, rfl⟩
  | case4 c cs d r hr ih =>
    have hx : rdropSpace (c :: cs) = c :: d :: r := by
      rw [rdropSpace, hr]
    rcases ih with ⟨u, hu⟩
    rw [hx]
    refine ⟨u, ?_⟩
    rw [List.cons_append]
    rw [hr] at hu
    rw [← hu]

/-- The head of `rdropSpace l` (when present) is the head of `l`. -/
theorem head?_rdropSpace : ∀ (l : List Char) (d : Char),
    (rdropSpace l).head? = some d → l.head? = some d := by
  intro l
  induction l using rdropSpace.induct with
  | case1 => simp [rdropSpace]
  | case2 c cs hr h ih =>
    intro d hd
    rw [rdropSpace, hr, if_pos h] at hd
    simp at hd
  | case3 c cs hr h ih =>
    intro d hd
    rw [rdropSpace, hr, if_neg h] at hd
    exact hd
  | case4 c cs d0 r hr ih =>
    intro d hd
    rw [rdropSpace, hr, List.head?_cons] at hd
    rw [List.head?_cons]
    exact hd

/-- The last character kept by `rdropSpace` is never whitespace. -/
theorem getLast?_rdropSpace : ∀ (l : List Char) (d : Char),
    (rdropSpace l).getLast? = some d → pythonIsSpace d = false := by
  intro l
  induction l using rdropSpace.induct with
  | case1 => simp [rdropSpace]
  | case2 c cs hr h ih =>
    intro d hd
    rw [rdropSpace, hr, if_pos h] at hd
    simp at hd
  | case3 c cs hr h ih =>
    intro d hd
    rw [rdropSpace, hr, if_neg h] at hd
    simp at hd
    subst hd
    simpa using h
  | case4 c cs d0 r hr ih =>
    intro d hd
    rw [rdropSpace, hr, List.getLast?_cons_cons] at hd
    exact ih d (by rw [hr]; exact hd)

/-- The head kept by `dropWhile pythonIsSpace` is never whitespace. -/
theorem head?_dropWhile_space : ∀ (l : List Char) (d : Char),
    (l.dropWhile pythonIsSpace).head? = some d → pythonIsSpace d = false := by
  intro l
  induction l with
  | nil => simp
  | cons c cs ih =>
    intro d hd
    rw [List.dropWhile_cons] at hd
    split_ifs at hd with h
    · exact ih d hd
    · rw [List.head?_cons] at hd
      injection hd with h1
      subst h1
      simpa using h

/-- The head of a stripped string is never whitespace. -/
theorem head?_pyStrip_nonspace : ∀ (l : List Char) (d : Char),
    (pyStrip l).head? = some d → pythonIsSpace d = false :=
  fun l d hd => head?_dropWhile_space l d (head?_rdropSpace _ d hd)

/-- The last character of a stripped string is never whitespace. -/
theorem getLast?_pyStrip_nonspace : ∀ (l : List Char) (d : Char),
    (pyStrip l).getLast? = some d → pythonIsSpace d = false :=
  fun _ d hd => getLast?_rdropSpace _ d hd

/-- `str.strip()` output has no leading and no trailing whitespace. -/
theorem isStripped_pyStrip : ∀ (l : List Char),
    isStripped (String.mk (pyStrip l)) = true := by
  intro l
  rw [isStripped]
  rw [Bool.and_eq_true]
  constructor
  · cases hh : (pyStrip l).head? with
    | none => rfl
    | some c => simp [head?_pyStrip_nonspace l c hh]
  · cases hh : (pyStrip l).getLast? with
    | none => rfl
    | some c => simp [getLast?_pyStrip_nonspace l c hh]

/-- A list with no adjacent whitespace pair keeps that property under
`str.strip()`. -/
theorem noWsPair_pyStrip (l : List Char)
    (h : scanHas startsWsPair l = false) :
    scanHas startsWsPair (pyStrip l) = false := by
  unfold pyStrip
  have h1 := scanHas_dropWhile_false startsWsPair pythonIsSpace l h
  rcases rdropSpace_append (l.dropWhile pythonIsSpace) with ⟨u, hu⟩
  refine scanHas_append_false startsWsPair startsWsPair_ext _ u ?_
  rw [← hu]
  exact h1

/-- Counterexample to claim C3 as stated: `clean_resume` of `API.py` does
not strip its result; on the input " a" the output keeps a leading
space. -/
theorem claim_C3_counterexample :
    isStripped (clean_resume_api " a") = false := by decide

/-- Claim C3 (amended): both normalizers never emit two adjacent
whitespace characters, and `app.py`'s normalizer (which ends with
`strip()`) also has no leading and no trailing whitespace; `API.py`'s
variant may keep a single boundary space. -/
theorem claim_C3_single_spaces :
    ∀ x : String,
      scanHas startsWsPair (clean_resume_api x).data = false ∧
      scanHas startsWsPair (clean_resume_app x).data = false ∧
      isStripped (clean_resume_app x) = true := by
  intro x
  refine ⟨noWsPair_collapseAux false _, ?_, isStripped_pyStrip _⟩
  exact noWsPair_pyStrip _ (noWsPair_collapseAux false _)

/-- A failed window scan on a cons splits into a failed window at the
head and a failed scan of the tail. -/
theorem scanHas_false_cons (s : List Char → Bool) (c : Char) (cs : List Char)
    (h : scanHas s (c :: cs) = false) :
    s (c :: cs) = false ∧ scanHas s cs = false := by
  rw [scanHas] at h
  exact Bool.or_eq_false_iff.mp h

/-- Inversion of the `http` window predicate. -/
theorem startsHttpMatch_inv : ∀ (l : List Char), startsHttpMatch l = true →
    ∃ (e : Char) (r : List Char),
      l = 'h' :: 't' :: 't' :: 'p' :: e :: r ∧ pythonIsSpace e = false := by
  intro l h
  rcases l with _ | ⟨a, _ | ⟨b, _ | ⟨c, _ | ⟨d, _ | ⟨e, r⟩⟩⟩⟩⟩ <;>
    simp only [startsHttpMatch, Bool.and_eq_true, beq_iff_eq,
      Bool.not_eq_true', Bool.false_eq_true] at h
  obtain ⟨⟨⟨⟨ha, hb⟩, hc⟩, hd⟩, he⟩ := h
  subst ha; subst hb; subst hc; subst hd
  exact ⟨e, r, rfl, he⟩

/-- The `http` window holds on any list starting with the window. -/
theorem startsHttpMatch_of_window : ∀ (e : Char) (r : List Char),
    pythonIsSpace e = false →
    startsHttpMatch ('h' :: 't' :: 't' :: 'p' :: e :: r) = true := by
  intro e r he
  simp [startsHttpMatch, he]

/-- A list on which the `http` window holds starts with a non-whitespace
character. -/
theorem startsHttpMatch_head_nonspace : ∀ (d : Char) (l : List Char),
    startsHttpMatch (d :: l) = true → pythonIsSpace d = false := by
  intro d l h
  rcases startsHttpMatch_inv _ h with ⟨e, r, heq, _⟩
  injection heq with h1 _
  subst h1
  decide

/-- The `http` window is stable under extension on the right. -/
theorem startsHttpMatch_ext : ∀ (w u : List Char),
    startsHttpMatch w = true → startsHttpMatch (w ++ u) = true := by
  intro w u h
  rcases startsHttpMatch_inv _ h with ⟨e, r, rfl, he⟩
  simp [startsHttpMatch, he]

/-- Inversion of the `RT|cc` window predicate. -/
theorem startsRTcc_inv : ∀ (l : List Char), startsRTcc l = true →
    ∃ (a b : Char) (r : List Char),
      l = a :: b :: r ∧ ((a = 'R' ∧ b = 'T') ∨ (a = 'c' ∧ b = 'c')) := by
  intro l h
  rcases l with _ | ⟨a, _ | ⟨b, r⟩⟩ <;> simp [startsRTcc] at h
  exact ⟨a, b, r, rfl, h⟩

/-- The `RT|cc` window holds on any list starting with the window. -/
theorem startsRTcc_of_window : ∀ (a b : Char) (r : List Char),
    ((a = 'R' ∧ b = 'T') ∨ (a = 'c' ∧ b = 'c')) →
    startsRTcc (a :: b :: r) = true := by
  intro a b r h
  rcases h with ⟨h1, h2⟩ | ⟨h1, h2⟩ <;> subst h1 <;> subst h2 <;>
    simp [startsRTcc]

/-- A list on which the `RT|cc` window holds starts with a non-whitespace
character. -/
theorem startsRTcc_head_nonspace : ∀ (d : Char) (l : List Char),
    startsRTcc (d :: l) = true → pythonIsSpace d = false := by
  intro d l h
  rcases startsRTcc_inv _ h with ⟨a, b, r, heq, hab⟩
  injection heq with h1 _
  subst h1
  rcases hab with ⟨h1, _⟩ | ⟨h1, _⟩ <;> subst h1 <;> decide

/-- The `RT|cc` window is stable under extension on the right. -/
theorem startsRTcc_ext : ∀ (w u : List Char),
    startsRTcc w = true → startsRTcc (w ++ u) = true := by
  intro w u h
  rcases startsRTcc_inv _ h with ⟨a, b, r, rfl, hab⟩
  exact startsRTcc_of_window a b (r ++ u) hab

/-- Tracing a run of non-whitespace output characters backwards through a
scanner stage that copies non-whitespace characters one-for-one. -/
theorem scanTrace (g : List Char → List Char)
    (hpeel : ∀ (L : List Char) (d : Char) (R : List Char),
      g L = d :: R → pythonIsSpace d = false →
      ∃ L', L = d :: L' ∧ R = g L') :
    ∀ (w : List Char), (∀ c ∈ w, pythonIsSpace c = false) →
    ∀ (L R : List Char), g L = w ++ R → ∃ L', L = w ++ L' ∧ R = g L' := by
  intro w
  induction w with
  | nil => exact fun _ L R h => ⟨L, rfl, h.symm⟩
  | cons d w2 ih =>
    intro hw L R hg
    rw [List.cons_append] at hg
    rcases hpeel L d _ hg (hw d (List.mem_cons_self _ _)) with ⟨L1, hL1, hR1⟩
    rcases ih (fun c hc => hw c (List.mem_cons_of_mem _ hc)) L1 R hR1.symm with
      ⟨L2, hL2, hRg⟩
    refine ⟨L2, ?_, hRg⟩
    rw [hL1, hL2, List.cons_append]

/-- Nonspace-head peeling for the `RT|cc` scanner. -/
theorem peel_pySubRTcc : ∀ (L : List Char) (d : Char) (R : List Char),
    pySubRTcc L = d :: R → pythonIsSpace d = false →
    ∃ L', L = d :: L' ∧ R = pySubRTcc L' := by
  intro L d R hL hd
  rcases L with _ | ⟨c1, _ | ⟨c2, cs⟩⟩
  · simp [pySubRTcc] at hL
  · rw [pySubRTcc] at hL
    injection hL with h1 h2
    refine ⟨[], by rw [h1], ?_⟩
    rw [← h2]
    rfl
  · rw [pySubRTcc] at hL
    split_ifs at hL with h
    · injection hL with h1 _
      rw [← h1] at hd
      exact absurd hd (by decide)
    · injection hL with h1 h2
      exact ⟨c2 :: cs, by rw [h1], h2.symm⟩

/-- Nonspace-head peeling for a character map that only turns characters
into spaces. -/
theorem peel_map (f : Char → Char) (hf : ∀ x, f x = x ∨ f x = ' ') :
    ∀ (L : List Char) (d : Char) (R : List Char),
      L.map f = d :: R → pythonIsSpace d = false →
      ∃ L', L = d :: L' ∧ R = L'.map f := by
  intro L d R hL hd
  rcases L with _ | ⟨a, L2⟩
  · simp at hL
  · rw [List.map_cons] at hL
    injection hL with h1 h2
    rcases hf a with h | h
    · rw [h] at h1
      exact ⟨L2, by rw [h1], h2.symm⟩
    · rw [h] at h1
      rw [← h1] at hd
      exact absurd hd (by decide)

/-- Nonspace-head peeling for the whitespace collapser in copy state. -/
theorem peel_collapseAux_false : ∀ (L : List Char) (d : Char) (R : List Char),
    collapseAux false L = d :: R → pythonIsSpace d = false →
    ∃ L', L = d :: L' ∧ R = collapseAux false L' := by
  intro L d R hL hd
  rcases L with _ | ⟨c, cs⟩
  · simp [collapseAux] at hL
  · rw [collapseAux] at hL
    split_ifs at hL with h
    · injection hL with h1 _
      rw [← h1] at hd
      exact absurd hd (by decide)
    · injection hL with h1 h2
      exact ⟨cs, by rw [h1], h2.symm⟩

/-- Output of the tag scanner inside a `\S+` run always starts with a
whitespace character (when non-empty). -/
theorem head_subTagAux_true_space : ∀ (tag : Char) (repl : List Char)
    (L : List Char) (d : Char) (R : List Char),
    subTagAux tag repl true L = d :: R → pythonIsSpace d = true := by
  intro tag repl L
  induction L with
  | nil =>
    intro d R h
    simp [subTagAux] at h
  | cons c cs ih =>
    intro d R h
    rw [subTagAux] at h
    split_ifs at h with hsp
    · injection h with h1 _
      rw [← h1]
      exact hsp
    · exact ih d R h

/-- Nonspace-head peeling for the tag scanner in scanning state, when the
replacement consists of whitespace only. -/
theorem peel_subTagAux_false (tag : Char) (repl : List Char)
    (hrepl : ∀ r ∈ repl, pythonIsSpace r = true) :
    ∀ (L : List Char) (d : Char) (R : List Char),
      subTagAux tag repl false L = d :: R → pythonIsSpace d = false →
      ∃ L', L = d :: L' ∧ R = subTagAux tag repl false L' := by
  intro L d R hL hd
  rcases L with _ | ⟨c, cs⟩
  · simp [subTagAux] at hL
  · rw [subTagAux] at hL
    split_ifs at hL with h
    · rcases repl with _ | ⟨r0, rs⟩
      · rw [List.nil_append] at hL
        have hsp := head_subTagAux_true_space tag [] cs d R hL
        rw [hsp] at hd
        exact Bool.noConfusion hd
      · rw [List.cons_append] at hL
        injection hL with h1 _
        have hr0 := hrepl r0 (List.mem_cons_self _ _)
        rw [← h1, hr0] at hd
        exact Bool.noConfusion hd
    · injection hL with h1 h2
      exact ⟨cs, by rw [h1], h2.symm⟩

/-- Nonspace-head peeling for the URL scanner in scanning state. -/
theorem peel_subHttpAux_norm : ∀ (L : List Char) (d : Char) (R : List Char),
    subHttpAux HSt.norm L = d :: R → pythonIsSpace d = false →
    ∃ L', L = d :: L' ∧ R = subHttpAux HSt.norm L' := by
  intro L d R hL hd
  rcases L with _ | ⟨c, cs⟩
  · simp [subHttpAux] at hL
  · rw [subHttpAux] at hL
    split_ifs at hL with h
    · injection hL with h1 _
      rw [← h1] at hd
      exact absurd hd (by decide)
    · injection hL with h1 h2
      exact ⟨cs, by rw [h1], h2.symm⟩

/-- A window that always begins with non-whitespace cannot start at a
whitespace character. -/
theorem space_no_start (s : List Char → Bool)
    (hhead : ∀ (d : Char) (l : List Char), s (d :: l) = true →
      pythonIsSpace d = false)
    (d : Char) (hd : pythonIsSpace d = true) (X : List Char) :
    s (d :: X) = false := by
  by_cases hs : s (d :: X) = true
  · have hx := hhead d X hs
    rw [hd] at hx
    exact Bool.noConfusion hx
  · simpa using hs

/-- If a window starts at a copied character of a stage output, tracing
the window back through the stage exhibits the same window in the
input. -/
theorem window_no_start (s : List Char → Bool)
    (hwin : ∀ (l : List Char), s l = true → ∃ (w r : List Char),
      l = w ++ r ∧ w ≠ [] ∧ (∀ c ∈ w, pythonIsSpace c = false) ∧
        ∀ t, s (w ++ t) = true)
    (g : List Char → List Char)
    (hpeel : ∀ (L : List Char) (d : Char) (R : List Char),
      g L = d :: R → pythonIsSpace d = false → ∃ L', L = d :: L' ∧ R = g L')
    (c : Char) (cs : List Char) (h1 : s (c :: cs) = false) :
    s (c :: g cs) = false := by
  by_cases hs : s (c :: g cs) = true
  · exfalso
    rcases hwin _ hs with ⟨w, r, heq, hne, hwns, hall⟩
    rcases w with _ | ⟨w0, w2⟩
    · exact hne rfl
    · rw [List.cons_append] at heq
      injection heq with e1 e2
      rcases scanTrace g hpeel w2
        (fun x hx => hwns x (List.mem_cons_of_mem _ hx)) cs r e2 with ⟨L2, hL2, _⟩
      have hx : s (c :: cs) = true := by
        rw [hL2, e1]
        have ht := hall L2
        rw [List.cons_append] at ht
        exact ht
      rw [hx] at h1
      exact Bool.noConfusion h1
  · simpa using hs

/-- The URL substitution leaves no `http`-plus-nonspace occurrence in its
output, from any scanner state. -/
theorem noHttp_subHttpAux : ∀ (st : HSt) (l : List Char),
    scanHas startsHttpMatch (subHttpAux st l) = false := by
  intro st l
  induction st, l using subHttpAux.induct with
  | case1 st => simp [subHttpAux, scanHas]
  | case2 c cs ih =>
    rw [subHttpAux]
    exact ih
  | case3 c cs ih =>
    rw [subHttpAux]
    exact ih
  | case4 c cs ih =>
    rw [subHttpAux]
    exact ih
  | case5 c cs ih =>
    rw [subHttpAux]
    exact ih
  | case6 c cs h ih =>
    rw [subHttpAux, if_pos h]
    exact ih
  | case7 c cs h ih =>
    rw [subHttpAux, if_neg h]
    exact ih
  | case8 c cs h ih =>
    rw [subHttpAux, if_pos h, scanHas, Bool.or_eq_false_iff]
    exact ⟨space_no_start startsHttpMatch startsHttpMatch_head_nonspace ' '
      (by decide) _, ih⟩
  | case9 c cs h ih =>
    rw [subHttpAux, if_neg h, scanHas, Bool.or_eq_false_iff]
    refine ⟨?_, ih⟩
    by_cases hs : startsHttpMatch (c :: subHttpAux HSt.norm cs) = true
    · exfalso
      rcases startsHttpMatch_inv _ hs with ⟨e, r, heq, he⟩
      injection heq with h1 h2
      have hw : ∀ x ∈ ['t', 't', 'p', e], pythonIsSpace x = false := by
        intro x hx
        rcases List.mem_cons.mp hx with rfl | hx
        · decide
        rcases List.mem_cons.mp hx with rfl | hx
        · decide
        rcases List.mem_cons.mp hx with rfl | hx
        · decide
        rcases List.mem_cons.mp hx with rfl | hx
        · exact he
        · simp at hx
      rcases scanTrace (subHttpAux HSt.norm) peel_subHttpAux_norm
        ['t', 't', 'p', e] hw cs r h2 with ⟨L2, hL2, _⟩
      have hx : startsHttpMatch (c :: cs) = true := by
        rw [hL2, h1]
        exact startsHttpMatch_of_window e L2 he
      exact h hx
    · simpa using hs
  | case10 c cs h ih =>
    rw [subHttpAux, if_pos h]
    exact ih
  | case11 c cs h h2 ih =>
    rw [subHttpAux, if_neg h, if_pos h2, scanHas, Bool.or_eq_false_iff]
    exact ⟨space_no_start startsHttpMatch startsHttpMatch_head_nonspace ' '
      (by decide) _, ih⟩
  | case12 c cs h h2 ih =>
    rw [subHttpAux, if_neg h, if_neg h2, scanHas, Bool.or_eq_false_iff]
    refine ⟨?_, ih⟩
    by_cases hs : startsHttpMatch (c :: subHttpAux HSt.norm cs) = true
    · exfalso
      rcases startsHttpMatch_inv _ hs with ⟨e, r, heq, he⟩
      injection heq with h1 h3
      have hw : ∀ x ∈ ['t', 't', 'p', e], pythonIsSpace x = false := by
        intro x hx
        rcases List.mem_cons.mp hx with rfl | hx
        · decide
        rcases List.mem_cons.mp hx with rfl | hx
        · decide
        rcases List.mem_cons.mp hx with rfl | hx
        · decide
        rcases List.mem_cons.mp hx with rfl | hx
        · exact he
        · simp at hx
      rcases scanTrace (subHttpAux HSt.norm) peel_subHttpAux_norm
        ['t', 't', 'p', e] hw cs r h3 with ⟨L2, hL2, _⟩
      have hx : startsHttpMatch (c :: cs) = true := by
        rw [hL2, h1]
        exact startsHttpMatch_of_window e L2 he
      exact h2 hx
    · simpa using hs

/-- The `RT|cc` substitution leaves no `RT` and no `cc` occurrence in its
output. -/
theorem noRTcc_pySubRTcc : ∀ (l : List Char),
    scanHas startsRTcc (pySubRTcc l) = false := by
  intro l
  induction l using pySubRTcc.induct with
  | case1 => rfl
  | case2 c => rfl
  | case3 c1 c2 cs h ih =>
    rw [pySubRTcc, if_pos h, scanHas, Bool.or_eq_false_iff]
    exact ⟨space_no_start startsRTcc startsRTcc_head_nonspace ' '
      (by decide) _, ih⟩
  | case4 c1 c2 cs h ih =>
    rw [pySubRTcc, if_neg h, scanHas, Bool.or_eq_false_iff]
    refine ⟨?_, ih⟩
    by_cases hs : startsRTcc (c1 :: pySubRTcc (c2 :: cs)) = true
    · exfalso
      rcases startsRTcc_inv _ hs with ⟨a, b, r, heq, hab⟩
      injection heq with h1 h2
      have hbns : pythonIsSpace b = false := by
        rcases hab with ⟨_, hb⟩ | ⟨_, hb⟩ <;> subst hb <;> decide
      rcases peel_pySubRTcc _ _ _ h2 hbns with ⟨L2, hL2, _⟩
      injection hL2 with h3 _
      rw [← h1, ← h3] at hab
      exact h hab
    · simpa using hs

/-- Preservation of a failed window scan through the `RT|cc` stage. -/
theorem scanHas_pySubRTcc_false (s : List Char → Bool)
    (hhead : ∀ (d : Char) (l : List Char), s (d :: l) = true →
      pythonIsSpace d = false)
    (hwin : ∀ (l : List Char), s l = true → ∃ (w r : List Char),
      l = w ++ r ∧ w ≠ [] ∧ (∀ c ∈ w, pythonIsSpace c = false) ∧
        ∀ t, s (w ++ t) = true) :
    ∀ (l : List Char), scanHas s l = false →
      scanHas s (pySubRTcc l) = false := by
  intro l
  induction l using pySubRTcc.induct with
  | case1 => exact fun h => h
  | case2 c => exact fun h => h
  | case3 c1 c2 cs h ih =>
    intro hscan
    rcases scanHas_false_cons s _ _ hscan with ⟨_, h2⟩
    rcases scanHas_false_cons s _ _ h2 with ⟨_, h3⟩
    rw [pySubRTcc, if_pos h, scanHas, Bool.or_eq_false_iff]
    exact ⟨space_no_start s hhead ' ' (by decide) _, ih h3⟩
  | case4 c1 c2 cs h ih =>
    intro hscan
    rcases scanHas_false_cons s _ _ hscan with ⟨h1, h2⟩
    rw [pySubRTcc, if_neg h, scanHas, Bool.or_eq_false_iff]
    exact ⟨window_no_start s hwin pySubRTcc peel_pySubRTcc c1 (c2 :: cs) h1,
      ih h2⟩

/-- A failed window scan stays failed after prepending whitespace. -/
theorem scanHas_spaces_append (s : List Char → Bool)
    (hhead : ∀ (d : Char) (l : List Char), s (d :: l) = true →
      pythonIsSpace d = false)
    (repl : List Char) (hrepl : ∀ r ∈ repl, pythonIsSpace r = true)
    (X : List Char) (hX : scanHas s X = false) :
    scanHas s (repl ++ X) = false := by
  induction repl with
  | nil => exact hX
  | cons r0 rs ih =>
    rw [List.cons_append, scanHas, Bool.or_eq_false_iff]
    refine ⟨space_no_start s hhead r0 (hrepl r0 (List.mem_cons_self _ _)) _, ?_⟩
    exact ih (fun r hr => hrepl r (List.mem_cons_of_mem _ hr))

/-- Preservation of a failed window scan through a tag-substitution stage
whose replacement is whitespace only. -/
theorem scanHas_subTagAux_false (s : List Char → Bool)
    (hhead : ∀ (d : Char) (l : List Char), s (d :: l) = true →
      pythonIsSpace d = false)
    (hwin : ∀ (l : List Char), s l = true → ∃ (w r : List Char),
      l = w ++ r ∧ w ≠ [] ∧ (∀ c ∈ w, pythonIsSpace c = false) ∧
        ∀ t, s (w ++ t) = true)
    (tag : Char) (repl : List Char)
    (hrepl : ∀ r ∈ repl, pythonIsSpace r = true) :
    ∀ (b : Bool) (l : List Char), scanHas s l = false →
      scanHas s (subTagAux tag repl b l) = false := by
  intro b l
  induction b, l using subTagAux.induct tag repl with
  | case1 => exact fun h => h
  | case2 c cs hsp ih =>
    intro h
    rcases scanHas_false_cons s _ _ h with ⟨h1, h2⟩
    rw [subTagAux, if_pos hsp, scanHas, Bool.or_eq_false_iff]
    exact ⟨window_no_start s hwin _ (peel_subTagAux_false tag repl hrepl)
      c cs h1, ih h2⟩
  | case3 c cs hsp ih =>
    intro h
    rw [subTagAux, if_neg hsp]
    exact ih (scanHas_tail_false s _ _ h)
  | case4 => exact fun h => h
  | case5 c cs hc ih =>
    intro h
    rw [subTagAux, if_pos hc]
    exact scanHas_spaces_append s hhead repl hrepl _
      (ih (scanHas_tail_false s _ _ h))
  | case6 c cs hc ih =>
    intro h
    rcases scanHas_false_cons s _ _ h with ⟨h1, h2⟩
    rw [subTagAux, if_neg hc, scanHas, Bool.or_eq_false_iff]
    exact ⟨window_no_start s hwin _ (peel_subTagAux_false tag repl hrepl)
      c cs h1, ih h2⟩

/-- Preservation of a failed window scan through a character map that
only turns characters into spaces. -/
theorem scanHas_map_false (s : List Char → Bool)
    (hhead : ∀ (d : Char) (l : List Char), s (d :: l) = true →
      pythonIsSpace d = false)
    (hwin : ∀ (l : List Char), s l = true → ∃ (w r : List Char),
      l = w ++ r ∧ w ≠ [] ∧ (∀ c ∈ w, pythonIsSpace c = false) ∧
        ∀ t, s (w ++ t) = true)
    (f : Char → Char) (hf : ∀ x, f x = x ∨ f x = ' ') :
    ∀ (l : List Char), scanHas s l = false →
      scanHas s (l.map f) = false := by
  intro l
  induction l with
  | nil => exact fun h => h
  | cons c cs ih =>
    intro h
    rcases scanHas_false_cons s c cs h with ⟨h1, h2⟩
    rw [List.map_cons, scanHas, Bool.or_eq_false_iff]
    refine ⟨?_, ih h2⟩
    rcases hf c with hfc | hfc
    · rw [hfc]
      exact window_no_start s hwin _ (peel_map f hf) c cs h1
    · rw [hfc]
      exact space_no_start s hhead ' ' (by decide) _

/-- Preservation of a failed window scan through the whitespace
collapser. -/
theorem scanHas_collapseAux_false (s : List Char → Bool)
    (hhead : ∀ (d : Char) (l : List Char), s (d :: l) = true →
      pythonIsSpace d = false)
    (hwin : ∀ (l : List Char), s l = true → ∃ (w r : List Char),
      l = w ++ r ∧ w ≠ [] ∧ (∀ c ∈ w, pythonIsSpace c = false) ∧
        ∀ t, s (w ++ t) = true) :
    ∀ (b : Bool) (l : List Char), scanHas s l = false →
      scanHas s (collapseAux b l) = false := by
  intro b l
  induction b, l using collapseAux.induct with
  | case1 b => intro h; simp [collapseAux, scanHas]
  | case2 c cs hsp ih =>
    intro h
    rw [collapseAux, if_pos hsp]
    exact ih (scanHas_tail_false s _ _ h)
  | case3 c cs hsp ih =>
    intro h
    rcases scanHas_false_cons s _ _ h with ⟨h1, h2⟩
    rw [collapseAux, if_neg hsp, scanHas, Bool.or_eq_false_iff]
    exact ⟨window_no_start s hwin _ peel_collapseAux_false c cs h1, ih h2⟩
  | case4 c cs hsp ih =>
    intro h
    rw [collapseAux, if_pos hsp, scanHas, Bool.or_eq_false_iff]
    exact ⟨space_no_start s hhead ' ' (by decide) _,
      ih (scanHas_tail_false s _ _ h)⟩
  | case5 c cs hsp ih =>
    intro h
    rcases scanHas_false_cons s _ _ h with ⟨h1, h2⟩
    rw [collapseAux, if_neg hsp, scanHas, Bool.or_eq_false_iff]
    exact ⟨window_no_start s hwin _ peel_collapseAux_false c cs h1, ih h2⟩

/-- Window decomposition witness for the `http` window predicate. -/
theorem hwin_startsHttpMatch : ∀ (l : List Char), startsHttpMatch l = true →
    ∃ (w r : List Char), l = w ++ r ∧ w ≠ [] ∧
      (∀ c ∈ w, pythonIsSpace c = false) ∧
      ∀ t, startsHttpMatch (w ++ t) = true := by
  intro l h
  rcases startsHttpMatch_inv _ h with ⟨e, r, rfl, he⟩
  refine ⟨['h', 't', 't', 'p', e], r, rfl, by simp, ?_, ?_⟩
  · intro c hc
    rcases List.mem_cons.mp hc with rfl | hc
    · decide
    rcases List.mem_cons.mp hc with rfl | hc
    · decide
    rcases List.mem_cons.mp hc with rfl | hc
    · decide
    rcases List.mem_cons.mp hc with rfl | hc
    · decide
    rcases List.mem_cons.mp hc with rfl | hc
    · exact he
    · simp at hc
  · intro t
    exact startsHttpMatch_of_window e t he

/-- Window decomposition witness for the `RT|cc` window predicate. -/
theorem hwin_startsRTcc : ∀ (l : List Char), startsRTcc l = true →
    ∃ (w r : List Char), l = w ++ r ∧ w ≠ [] ∧
      (∀ c ∈ w, pythonIsSpace c = false) ∧
      ∀ t, startsRTcc (w ++ t) = true := by
  intro l h
  rcases startsRTcc_inv _ h with ⟨a, b, r, rfl, hab⟩
  refine ⟨[a, b], r, rfl, by simp, ?_, ?_⟩
  · intro c hc
    simp at hc
    rcases hab with ⟨rfl, rfl⟩ | ⟨rfl, rfl⟩ <;> rcases hc with rfl | rfl <;> decide
  · intro t
    exact startsRTcc_of_window a b t hab

/-- The normalized text contains no `http`-plus-nonspace occurrence. -/
theorem noHttp_cleanList : ∀ (l : List Char),
    scanHas startsHttpMatch (cleanList l) = false := by
  intro l
  unfold cleanList collapseSpaces pySubAt pySubHash pySubHttp
  apply scanHas_collapseAux_false startsHttpMatch startsHttpMatch_head_nonspace
    hwin_startsHttpMatch
  apply scanHas_map_false startsHttpMatch startsHttpMatch_head_nonspace
    hwin_startsHttpMatch nonAsciiToSpace spacey_nonAsciiToSpace
  apply scanHas_map_false startsHttpMatch startsHttpMatch_head_nonspace
    hwin_startsHttpMatch punctToSpace spacey_punctToSpace
  apply scanHas_subTagAux_false startsHttpMatch startsHttpMatch_head_nonspace
    hwin_startsHttpMatch '@' [' ', ' '] (by decide)
  apply scanHas_subTagAux_false startsHttpMatch startsHttpMatch_head_nonspace
    hwin_startsHttpMatch '#' [] (by simp)
  apply scanHas_pySubRTcc_false startsHttpMatch startsHttpMatch_head_nonspace
    hwin_startsHttpMatch
  exact noHttp_subHttpAux HSt.norm l

/-- The normalized text contains no `RT` and no `cc` occurrence. -/
theorem noRTcc_cleanList : ∀ (l : List Char),
    scanHas startsRTcc (cleanList l) = false := by
  intro l
  unfold cleanList collapseSpaces pySubAt pySubHash
  apply scanHas_collapseAux_false startsRTcc startsRTcc_head_nonspace
    hwin_startsRTcc
  apply scanHas_map_false startsRTcc startsRTcc_head_nonspace
    hwin_startsRTcc nonAsciiToSpace spacey_nonAsciiToSpace
  apply scanHas_map_false startsRTcc startsRTcc_head_nonspace
    hwin_startsRTcc punctToSpace spacey_punctToSpace
  apply scanHas_subTagAux_false startsRTcc startsRTcc_head_nonspace
    hwin_startsRTcc '@' [' ', ' '] (by decide)
  apply scanHas_subTagAux_false startsRTcc startsRTcc_head_nonspace
    hwin_startsRTcc '#' [] (by simp)
  exact noRTcc_pySubRTcc (pySubHttp l)

/-- Generic failed-scan preservation through `str.strip()` for a window
predicate stable under extension on the right. -/
theorem scanHas_pyStrip_false (s : List Char → Bool)
    (hext : ∀ (w u : List Char), s w = true → s (w ++ u) = true) :
    ∀ (l : List Char), scanHas s l = false →
      scanHas s (pyStrip l) = false := by
  intro l h
  unfold pyStrip
  have h1 := scanHas_dropWhile_false s pythonIsSpace l h
  rcases rdropSpace_append (l.dropWhile pythonIsSpace) with ⟨u, hu⟩
  refine scanHas_append_false s hext _ u ?_
  rw [← hu]
  exact h1

/-- On text with no `http`-plus-nonspace occurrence the URL substitution
is the identity. -/
theorem pySubHttp_id : ∀ (l : List Char),
    scanHas startsHttpMatch l = false → pySubHttp l = l := by
  intro l
  induction l with
  | nil => exact fun _ => rfl
  | cons c cs ih =>
    intro h
    rcases scanHas_false_cons _ _ _ h with ⟨h1, h2⟩
    unfold pySubHttp at ih ⊢
    rw [subHttpAux, if_neg (by simp [h1])]
    rw [ih h2]

/-- On text with no `RT` and no `cc` occurrence the second substitution
is the identity. -/
theorem pySubRTcc_id : ∀ (l : List Char),
    scanHas startsRTcc l = false → pySubRTcc l = l := by
  intro l
  induction l using pySubRTcc.induct with
  | case1 => exact fun _ => rfl
  | case2 c => exact fun _ => rfl
  | case3 c1 c2 cs h ih =>
    intro hscan
    rcases scanHas_false_cons _ _ _ hscan with ⟨h1, _⟩
    rw [startsRTcc_of_window c1 c2 cs h] at h1
    exact Bool.noConfusion h1
  | case4 c1 c2 cs h ih =>
    intro hscan
    rw [pySubRTcc, if_neg h]
    rw [ih (scanHas_tail_false _ _ _ hscan)]

/-- On text not containing the tag character the tag substitution is the
identity. -/
theorem subTagAux_false_id (tag : Char) (repl : List Char) :
    ∀ (l : List Char), (∀ c ∈ l, c ≠ tag) →
      subTagAux tag repl false l = l := by
  intro l
  induction l with
  | nil => exact fun _ => rfl
  | cons c cs ih =>
    intro h
    have hc : c ≠ tag := h c (List.mem_cons_self _ _)
    rw [subTagAux, if_neg (fun hx => hc hx.1)]
    rw [ih (fun d hd => h d (List.mem_cons_of_mem _ hd))]

/-- A map that fixes every member of a list is the identity on it. -/
theorem map_id_of (f : Char → Char) : ∀ (l : List Char),
    (∀ c ∈ l, f c = c) → l.map f = l := by
  intro l
  induction l with
  | nil => exact fun _ => rfl
  | cons c cs ih =>
    intro h
    rw [List.map_cons, h c (List.mem_cons_self _ _),
      ih (fun d hd => h d (List.mem_cons_of_mem _ hd))]

/-- When the next character is not whitespace the two collapser states
agree. -/
theorem collapseAux_true_eq_false : ∀ (l : List Char),
    (∀ d, l.head? = some d → pythonIsSpace d = false) →
    collapseAux true l = collapseAux false l := by
  intro l hl
  cases l with
  | nil => rfl
  | cons c cs =>
    have hc := hl c (by rw [List.head?_cons])
    rw [collapseAux, collapseAux, if_neg (by simp [hc]), if_neg (by simp [hc])]

/-- On text whose whitespace is exactly single blanks the collapser is
the identity. -/
theorem collapseAux_false_id : ∀ (l : List Char),
    (∀ c ∈ l, pythonIsSpace c = true → c = ' ') →
    scanHas startsWsPair l = false →
    collapseAux false l = l := by
  intro l
  induction l with
  | nil => exact fun _ _ => rfl
  | cons c cs ih =>
    intro hbl hws
    rcases scanHas_false_cons _ _ _ hws with ⟨h1, h2⟩
    by_cases hsp : pythonIsSpace c = true
    · have hcblank : c = ' ' := hbl c (List.mem_cons_self _ _) hsp
      rw [collapseAux, if_pos hsp]
      rw [hcblank]
      congr 1
      have hhd : ∀ d, cs.head? = some d → pythonIsSpace d = false := by
        intro d hd
        cases cs with
        | nil => simp at hd
        | cons d0 ds =>
          rw [List.head?_cons] at hd
          injection hd with hd0
          rw [← hd0]
          by_cases hd1 : pythonIsSpace d0 = true
          · exfalso
            have hx : startsWsPair (c :: d0 :: ds) = true := by
              simp [startsWsPair, hsp, hd1]
            rw [hx] at h1
            exact Bool.noConfusion h1
          · simpa using hd1
      rw [collapseAux_true_eq_false cs hhd]
      exact ih (fun d hd => hbl d (List.mem_cons_of_mem _ hd)) h2
    · rw [collapseAux, if_neg hsp]
      congr 1
      exact ih (fun d hd => hbl d (List.mem_cons_of_mem _ hd)) h2

/-- If right-stripping empties a list, its last character (if any) is
whitespace. -/
theorem rdropSpace_all_space : ∀ (l : List Char),
    rdropSpace l = [] → ∀ d, l.getLast? = some d → pythonIsSpace d = true := by
  intro l
  induction l with
  | nil => intro _ d hd; simp at hd
  | cons c cs ih =>
    intro h d hd
    rw [rdropSpace] at h
    rcases hr : rdropSpace cs with _ | ⟨e0, r⟩
    · rw [hr] at h
      split_ifs at h with hc
      · cases cs with
        | nil =>
          simp at hd
          subst hd
          exact hc
        | cons e es =>
          rw [List.getLast?_cons_cons] at hd
          exact ih hr d hd
    · rw [hr] at h
      exact absurd h (by simp)

/-- On a list whose last character is not whitespace, right-stripping is
the identity. -/
theorem rdropSpace_id : ∀ (l : List Char),
    (∀ d, l.getLast? = some d → pythonIsSpace d = false) →
    rdropSpace l = l := by
  intro l
  induction l using rdropSpace.induct with
  | case1 => exact fun _ => rfl
  | case2 c cs hr hsp ih =>
    intro h
    exfalso
    cases cs with
    | nil =>
      have := h c (by simp)
      rw [this] at hsp
      exact Bool.noConfusion hsp
    | cons e es =>
      obtain ⟨d, hd⟩ : ∃ d, (e :: es).getLast? = some d := by
        cases hx : (e :: es).getLast? with
        | none => simp at hx
        | some d => exact ⟨d, rfl⟩
      have hsp2 := rdropSpace_all_space (e :: es) hr d hd
      have hns := h d (by rw [List.getLast?_cons_cons]; exact hd)
      rw [hns] at hsp2
      exact Bool.noConfusion hsp2
  | case3 c cs hr hsp ih =>
    intro h
    have hx : rdropSpace (c :: cs) = [c] := by
      rw [rdropSpace, hr, if_neg hsp]
    rw [hx]
    cases cs with
    | nil => rfl
    | cons e es =>
      exfalso
      obtain ⟨d, hd⟩ : ∃ d, (e :: es).getLast? = some d := by
        cases hy : (e :: es).getLast? with
        | none => simp at hy
        | some d => exact ⟨d, rfl⟩
      have hsp2 := rdropSpace_all_space (e :: es) hr d hd
      have hns := h d (by rw [List.getLast?_cons_cons]; exact hd)
      rw [hns] at hsp2
      exact Bool.noConfusion hsp2
  | case4 c cs d0 r hr ih =>
    intro h
    have hx : rdropSpace (c :: cs) = c :: d0 :: r := by
      rw [rdropSpace, hr]
    rw [hx]
    congr 1
    rw [← hr]
    have hcs : cs ≠ [] := by
      intro hcs
      rw [hcs] at hr
      simp [rdropSpace] at hr
    apply ih
    intro d hd
    apply h
    cases cs with
    | nil => exact absurd rfl hcs
    | cons e es =>
      rw [List.getLast?_cons_cons]
      exact hd

/-- On a list with no leading and no trailing whitespace, `str.strip()`
is the identity. -/
theorem pyStrip_id : ∀ (l : List Char),
    (∀ d, l.head? = some d → pythonIsSpace d = false) →
    (∀ d, l.getLast? = some d → pythonIsSpace d = false) →
    pyStrip l = l := by
  intro l hh hl
  unfold pyStrip
  have hdw : l.dropWhile pythonIsSpace = l := by
    cases l with
    | nil => rfl
    | cons c cs =>
      rw [List.dropWhile_cons,
        if_neg (by simp [hh c (by rw [List.head?_cons])])]
  rw [hdw]
  exact rdropSpace_id l hl

/-- Whitespace characters of the collapser output are always the blank
character. -/
theorem blank_of_mem_collapseAux : ∀ (b : Bool) (l : List Char) (c : Char),
    c ∈ collapseAux b l → pythonIsSpace c = true → c = ' ' := by
  intro b l
  induction b, l using collapseAux.induct with
  | case1 b => simp [collapseAux]
  | case2 c0 cs h ih =>
    intro c hc
    rw [collapseAux, if_pos h] at hc
    exact ih c hc
  | case3 c0 cs h ih =>
    intro c hc hsp
    rw [collapseAux, if_neg h] at hc
    rcases List.mem_cons.mp hc with h1 | h1
    · subst h1
      rw [hsp] at h
      exact absurd rfl h
    · exact ih c h1 hsp
  | case4 c0 cs h ih =>
    intro c hc hsp
    rw [collapseAux, if_pos h] at hc
    rcases List.mem_cons.mp hc with h1 | h1
    · exact h1
    · exact ih c h1 hsp
  | case5 c0 cs h ih =>
    intro c hc hsp
    rw [collapseAux, if_neg h] at hc
    rcases List.mem_cons.mp hc with h1 | h1
    · subst h1
      rw [hsp] at h
      exact absurd rfl h
    · exact ih c h1 hsp

/-- The normalizer is the identity on any text that is already fully
normalized: no `http` match, no `RT`/`cc`, no punctuation, ASCII only,
whitespace only as single blanks. -/
theorem cleanList_id (y : List Char)
    (hHttp : scanHas startsHttpMatch y = false)
    (hRT : scanHas startsRTcc y = false)
    (hchar : ∀ c ∈ y, isPunct c = false ∧ c.toNat < 128)
    (hws : scanHas startsWsPair y = false)
    (hblank : ∀ c ∈ y, pythonIsSpace c = true → c = ' ') :
    cleanList y = y := by
  have e1 : pySubHttp y = y := pySubHttp_id y hHttp
  have e2 : pySubRTcc y = y := pySubRTcc_id y hRT
  have e3 : subTagAux '#' [] false y = y := by
    apply subTagAux_false_id
    intro c hc heq
    have hp := (hchar c hc).1
    rw [heq] at hp
    exact absurd hp (by decide)
  have e4 : subTagAux '@' [' ', ' '] false y = y := by
    apply subTagAux_false_id
    intro c hc heq
    have hp := (hchar c hc).1
    rw [heq] at hp
    exact absurd hp (by decide)
  have e5 : y.map punctToSpace = y := by
    apply map_id_of
    intro c hc
    unfold punctToSpace
    rw [if_neg (by simp [(hchar c hc).1])]
  have e6 : y.map nonAsciiToSpace = y := by
    apply map_id_of
    intro c hc
    unfold nonAsciiToSpace
    rw [if_neg (by have := (hchar c hc).2; omega)]
  have e7 : collapseAux false y = y := collapseAux_false_id y hblank hws
  unfold cleanList collapseSpaces pySubHash pySubAt
  rw [e1, e2, e3, e4, e5, e6]
  exact e7

/-- List form of idempotence for the `API.py` normalizer. -/
theorem cleanList_idem : ∀ (l : List Char),
    cleanList (cleanList l) = cleanList l := by
  intro l
  apply cleanList_id
  · exact noHttp_cleanList l
  · exact noRTcc_cleanList l
  · exact fun c hc => charOK_of_mem_cleanList l c hc
  · exact noWsPair_collapseAux false _
  · exact fun c hc => blank_of_mem_collapseAux false _ c hc

/-- List form of idempotence for the `app.py` normalizer. -/
theorem cleanApp_idem : ∀ (l : List Char),
    pyStrip (cleanList (pyStrip (cleanList l))) = pyStrip (cleanList l) := by
  intro l
  have hHttp2 : scanHas startsHttpMatch (pyStrip (cleanList l)) = false :=
    scanHas_pyStrip_false startsHttpMatch startsHttpMatch_ext _
      (noHttp_cleanList l)
  have hRT2 : scanHas startsRTcc (pyStrip (cleanList l)) = false :=
    scanHas_pyStrip_false startsRTcc startsRTcc_ext _ (noRTcc_cleanList l)
  have hws2 : scanHas startsWsPair (pyStrip (cleanList l)) = false :=
    noWsPair_pyStrip _ (noWsPair_collapseAux false _)
  have hchar2 : ∀ c ∈ pyStrip (cleanList l), isPunct c = false ∧ c.toNat < 128 :=
    fun c hc => charOK_of_mem_cleanList l c (mem_of_pyStrip _ c hc)
  have hblank2 : ∀ c ∈ pyStrip (cleanList l), pythonIsSpace c = true → c = ' ' :=
    fun c hc => blank_of_mem_collapseAux false _ c (mem_of_pyStrip _ c hc)
  rw [cleanList_id _ hHttp2 hRT2 hchar2 hws2 hblank2]
  exact pyStrip_id _ (head?_pyStrip_nonspace _) (getLast?_pyStrip_nonspace _)

/-- Claim C6: both normalizers are idempotent: cleaning a second time
changes nothing. -/
theorem claim_C6_idempotent :
    ∀ x : String,
      clean_resume_api (clean_resume_api x) = clean_resume_api x ∧
      clean_resume_app (clean_resume_app x) = clean_resume_app x := by
  intro x
  exact ⟨congrArg String.mk (cleanList_idem x.data),
    congrArg String.mk (cleanApp_idem x.data)⟩
